import Mathlib

/-!
Verification of the grouping core of `eg.py` (Excel/CSV Grouping Tool).

The source program reads two tabular collections — "people" and "team heads" —
as ordered records of string fields, and assigns people to heads, either by a
normalized "college" grouping key (when a college column was detected in both
collections) or by an even, order-preserving uniform distribution.  Each
assignment is emitted as one flat output row pairing head fields (tagged
"Team Head - ") with member fields (tagged "Group Member - ") and, when no
member is present, a status text.

The shallow embedding below mirrors the processing block of the source
(`eg.py`, lines 112-297).  A `Record` is an ordered field list (Python dicts
preserve insertion order); an `Assoc` is one appended result row, kept in
structured form (head, optional member, optional status); `project` flattens
an `Assoc` into the exact dictionary built at each `grouped_results.append`
site of the source.  Mutable state (`assigned_people_identifiers`,
`processed_heads_identifiers`, `grouped_results`, the running people index and
remainder counter) is threaded explicitly; Python sets are modelled as lists
used only through membership, matching their use in the source.
-/

/-- An ordered record: field name to string value, in source column order. -/
abbrev Record := List (String × String)

/-- One produced association: the head record (absent only in the overflow /
no-available-head branches), the assigned member record (absent for
status-only rows), and the status text attached when no member (or no head)
is present.  Corresponds to one `row` appended to `grouped_results`. -/
structure Assoc where
  head : Option Record
  member : Option Record
  status : Option String
deriving DecidableEq, Repr

/-- `get_identifier(item, primary_column)` of the source: `item.get(primary_column)`. -/
def getIdentifier (item : Record) (primaryColumn : String) : Option String :=
  item.lookup primaryColumn

/-- Head fields of a result row: each field key tagged `"Team Head - "`,
in the head record's original order (source lines 172-173 etc.). -/
def headRowFields (h : Record) : Record :=
  h.map (fun kv => ("Team Head - " ++ kv.1, kv.2))

/-- Member fields of a result row: each field key tagged `"Group Member - "`,
in the member record's original order (source lines 186-187 etc.). -/
def memberRowFields (m : Record) : Record :=
  m.map (fun kv => ("Group Member - " ++ kv.1, kv.2))

/-- Python's `str.strip()`: remove leading and trailing whitespace,
modelled over the string's character list. -/
def strTrim (s : String) : String :=
  ⟨((s.data.dropWhile Char.isWhitespace).reverse.dropWhile Char.isWhitespace).reverse⟩

/-- Python's `str.lower()`: lower-case every character, modelled over the
string's character list. -/
def strLower (s : String) : String :=
  ⟨s.data.map Char.toLower⟩

/-- Normalization of a raw grouping value (source lines 132-134, 141-143):
a missing, empty or whitespace-only value yields no key; otherwise the
trimmed, lower-cased string. -/
def normalizeKey (v : Option String) : Option String :=
  match v with
  | none => none
  | some c => if strTrim c = "" then none else some (strLower (strTrim c))

/-- Add a record under a key to an insertion-ordered bucket map, appending a
new key at the end (Python dict first-seen key order). -/
def addToBucket (k : String) (r : Record) :
    List (String × List Record) → List (String × List Record)
  | [] => [(k, [r])]
  | (k', rs) :: rest =>
    if k' = k then (k', rs ++ [r]) :: rest else (k', rs) :: addToBucket k r rest

/-- Bucket records by optional key in input order, discarding keyless records
(source lines 130-146). -/
def bucketBy (keyOf : Record → Option String) (rs : List Record) :
    List (String × List Record) :=
  rs.foldl (fun acc r =>
    match keyOf r with
    | none => acc
    | some k => addToBucket k r acc) []

/-- Inner consumption loop of the uniform path (source lines 275-288):
`count` iterations; while the people index is in range, emit one row pairing
the head with the current person and advance the index; otherwise break. -/
def takeMembers (head : Record) (ppl : List Record) : Nat → Nat → List Assoc × Nat
  | 0, idx => ([], idx)
  | count + 1, idx =>
    if idx < ppl.length then
      let member := ppl.getD idx []
      let r := takeMembers head ppl count (idx + 1)
      (⟨some head, some member, none⟩ :: r.1, r.2)
    else ([], idx)

/-- Per-head loop of the uniform path (source lines 261-288): each head takes
`base` people, plus one more while the running remainder is positive; a head
with a zero allotment yields a single `"No members assigned"` status row. -/
def uniformHeads (ppl : List Record) (base : Nat) :
    List Record → Nat → Nat → List Assoc × Nat
  | [], _, idx => ([], idx)
  | head :: hs, rem, idx =>
    let count := if rem > 0 then base + 1 else base
    let rem' := if rem > 0 then rem - 1 else rem
    if count = 0 then
      let r := uniformHeads ppl base hs rem' idx
      (⟨some head, none, some "No members assigned"⟩ :: r.1, r.2)
    else
      let t := takeMembers head ppl count idx
      let r := uniformHeads ppl base hs rem' t.2
      (t.1 ++ r.1, r.2)

/-- Trailing loop of the uniform path (source lines 291-297): any people left
unconsumed each produce a headless `UNASSIGNED` row. -/
def leftoverAssocs (ppl : List Record) (idx : Nat) : List Assoc :=
  (ppl.drop idx).map
    (fun p => ⟨none, some p, some "UNASSIGNED (No more heads available)"⟩)

/-- The uniform (general) distribution branch (source lines 247-297):
fails when there are no heads; otherwise distributes `base = P / H` people per
head with the first `P mod H` heads taking one extra, consuming people
contiguously in input order. -/
def uniformPartition (heads ppl : List Record) : Except String (List Assoc) :=
  if heads.length = 0 then
    Except.error "Error: No team heads found. Cannot create groups."
  else
    let base := ppl.length / heads.length
    let rem := ppl.length % heads.length
    let r := uniformHeads ppl base heads rem 0
    Except.ok (r.1 ++ leftoverAssocs ppl r.2)

/-- Declarative restatement of the spec's uniform ("even") distribution:
head `i` receives `⌊P/H⌋` people, plus one more exactly when `i < P mod H`,
and its share is the contiguous slice of the people list starting after the
shares of all earlier heads; a head with an empty share yields one
`"No members assigned"` status association.  Compared against the code's
`uniformPartition` below. -/
def uniformSpecAssocs (heads ppl : List Record) : List Assoc :=
  (List.range heads.length).flatMap (fun i =>
    let base := ppl.length / heads.length
    let rem := ppl.length % heads.length
    if base + (if i < rem then 1 else 0) = 0 then
      [(⟨some (heads.getD i []), none, some "No members assigned"⟩ : Assoc)]
    else
      ((ppl.drop (i * base + min i rem)).take (base + (if i < rem then 1 else 0))).map
        (fun m => (⟨some (heads.getD i []), some m, none⟩ : Assoc)))

/-- Mutable state of the grouped (college) branch: the result rows so far,
the identifiers of already-assigned people, and the identifiers of
already-processed heads (source lines 118-119, 148). -/
structure GState where
  rows : List Assoc
  assigned : List String
  processed : List String
deriving DecidableEq, Repr

/-- Per-head member consumption inside one college (source lines 177-192):
`count` slots; a person whose identifier is missing or already assigned is
skipped (the index still advances), otherwise a row is emitted and the
identifier is recorded as assigned. -/
def collegeMembers (pPrim : String) (head : Record) (ppl : List Record) :
    Nat → Nat → List String → List Assoc × Nat × List String
  | 0, idx, assigned => ([], idx, assigned)
  | count + 1, idx, assigned =>
    if idx < ppl.length then
      let member := ppl.getD idx []
      match getIdentifier member pPrim with
      | some mid =>
        if assigned.contains mid then
          collegeMembers pPrim head ppl count (idx + 1) assigned
        else
          let r := collegeMembers pPrim head ppl count (idx + 1) (assigned ++ [mid])
          (⟨some head, some member, none⟩ :: r.1, r.2.1, r.2.2)
      | none => collegeMembers pPrim head ppl count (idx + 1) assigned
    else ([], idx, assigned)

/-- Per-head loop of one college with both heads and people (source lines
153-192): mark the head processed (when it has an identifier), compute its
allotment from the running remainder, and either emit a
`"No members assigned from {college}"` status row or consume members. -/
def collegeHeads (pPrim hPrim college : String) (ppl : List Record) (base : Nat) :
    List Record → Nat → Nat → GState → GState
  | [], _, _, st => st
  | head :: hs, rem, idx, st =>
    let processed' :=
      match getIdentifier head hPrim with
      | some hid => st.processed ++ [hid]
      | none => st.processed
    let count := if rem > 0 then base + 1 else base
    let rem' := if rem > 0 then rem - 1 else rem
    if count = 0 then
      collegeHeads pPrim hPrim college ppl base hs rem' idx
        ⟨st.rows ++ [⟨some head, none, some ("No members assigned from " ++ college)⟩],
         st.assigned, processed'⟩
    else
      let r := collegeMembers pPrim head ppl count idx st.assigned
      collegeHeads pPrim hPrim college ppl base hs rem' r.2.1
        ⟨st.rows ++ r.1, r.2.2, processed'⟩

/-- Loop over the heads of a college that has no people bucket (source lines
193-202): each head is marked processed and receives a
`"No members from {college} assigned to this head"` status row. -/
def emptyCollegeHeads (hPrim college : String) : List Record → GState → GState
  | [], st => st
  | head :: hs, st =>
    let processed' :=
      match getIdentifier head hPrim with
      | some hid => st.processed ++ [hid]
      | none => st.processed
    emptyCollegeHeads hPrim college hs
      ⟨st.rows ++ [⟨some head, none,
          some ("No members from " ++ college ++ " assigned to this head")⟩],
       st.assigned, processed'⟩

/-- Outer loop over the head buckets, in first-seen college order (source
lines 150-202). -/
def collegeLoop (pPrim hPrim : String) (peopleByCollege : List (String × List Record)) :
    List (String × List Record) → GState → GState
  | [], st => st
  | (college, headsInCollege) :: rest, st =>
    let peopleInCollege := (peopleByCollege.lookup college).getD []
    let st' :=
      if !headsInCollege.isEmpty && !peopleInCollege.isEmpty then
        collegeHeads pPrim hPrim college peopleInCollege
          (peopleInCollege.length / headsInCollege.length)
          headsInCollege
          (peopleInCollege.length % headsInCollege.length) 0 st
      else if !headsInCollege.isEmpty then
        emptyCollegeHeads hPrim college headsInCollege st
      else st
    collegeLoop pPrim hPrim peopleByCollege rest st'

/-- General round-robin assignment of leftover people to the available heads
(source lines 226-238): the head index wraps to 0 when it reaches the end of
the available list, and each person produces one row. -/
def roundRobin (avail : List Record) : List Record → Nat → List Assoc
  | [], _ => []
  | p :: ps, hi =>
    let hi' := if hi ≥ avail.length then 0 else hi
    ⟨some (avail.getD hi' []), some p, none⟩ :: roundRobin avail ps (hi' + 1)

/-- The grouped (college-based) branch (source lines 127-245): bucket both
collections by normalized college, run the per-college pass, emit fallback
rows for heads never marked processed, and assign the remaining unassigned
people generally (round-robin over the not-yet-processed heads, falling back
to the full heads collection when that set is empty). -/
def groupedPath (peopleData headsData : List Record)
    (pPrim hPrim pCol hCol : String) : List Assoc :=
  let peopleByCollege := bucketBy (fun p => normalizeKey (p.lookup pCol)) peopleData
  let headsByCollege := bucketBy (fun h => normalizeKey (h.lookup hCol)) headsData
  let st1 := collegeLoop pPrim hPrim peopleByCollege headsByCollege ⟨[], [], []⟩
  let rows2 := st1.rows ++ headsData.filterMap (fun h =>
    match getIdentifier h hPrim with
    | some hid =>
      if st1.processed.contains hid then none
      else some (⟨some h, none,
        some "No members assigned (No college match or college info)"⟩ : Assoc)
    | none => none)
  let unassigned := peopleData.filter (fun p =>
    match getIdentifier p pPrim with
    | some pid => !(st1.assigned.contains pid)
    | none => true)
  if unassigned.isEmpty then rows2
  else
    let avail0 := headsData.filter (fun h =>
      match getIdentifier h hPrim with
      | some hid => !(st1.processed.contains hid)
      | none => true)
    let avail := if avail0.isEmpty then headsData else avail0
    if avail.isEmpty then
      rows2 ++ unassigned.map (fun p =>
        ⟨none, some p, some "UNASSIGNED (No matching college head or no available head)"⟩)
    else
      rows2 ++ roundRobin avail unassigned 0

/-- The partitioning core (source lines 127-297): college-based grouping when
a college column was detected in both collections, uniform distribution
otherwise. -/
def partition (peopleData headsData : List Record)
    (pPrim hPrim pCol hCol : String) : Except String (List Assoc) :=
  if pCol != "" && hCol != "" then
    Except.ok (groupedPath peopleData headsData pPrim hPrim pCol hCol)
  else
    uniformPartition headsData peopleData

/-- The Process button handler (source lines 112-117): both collections must
be non-empty before the partitioning core runs. -/
def processButton (peopleData headsData : List Record)
    (pPrim hPrim pCol hCol : String) : Except String (List Assoc) :=
  if peopleData.isEmpty then
    Except.error "Please upload the People Excel/CSV sheet and ensure data is loaded."
  else if headsData.isEmpty then
    Except.error "Please upload the Team Heads Excel/CSV sheet and ensure data is loaded."
  else
    partition peopleData headsData pPrim hPrim pCol hCol

/-- Flattening of one association into a result row, exactly as each
`grouped_results.append` site builds it: head fields first (tagged, in their
original order), then member fields (tagged, in their original order), or the
`"Group Member - Status"` field when no member is present; headless rows put
`"Team Head - Status"` first (source lines 241-245, 293-296).  The source
never produces an association with neither head nor member, nor a
member-less or head-less one without a status; the `getD` defaults are
unreachable artifacts of totality. -/
def project (a : Assoc) : Record :=
  match a.head, a.member with
  | some h, some m => headRowFields h ++ memberRowFields m
  | some h, none => headRowFields h ++ [("Group Member - Status", a.status.getD "")]
  | none, some m => ("Team Head - Status", a.status.getD "") :: memberRowFields m
  | none, none => [("Team Head - Status", a.status.getD "")]

/-- A full run at row level: the processed associations, each flattened to
its output row (the rows handed to the output DataFrame, source line 304). -/
def processRows (peopleData headsData : List Record)
    (pPrim hPrim pCol hCol : String) : Except String (List Record) :=
  (processButton peopleData headsData pPrim hPrim pCol hCol).map (List.map project)

deriving instance DecidableEq for Except

/-- Example 3 of the spec: head A of college X. -/
def ex3A : Record := [("Name", "A"), ("College", "X")]

/-- Example 3 of the spec: head B of college Y. -/
def ex3B : Record := [("Name", "B"), ("College", "Y")]

/-- Example 3 of the spec: person p1 of college X. -/
def ex3P1 : Record := [("Name", "p1"), ("College", "X")]

/-- Example 3 of the spec: person p2 of college X. -/
def ex3P2 : Record := [("Name", "p2"), ("College", "X")]

/-- Example 3 of the spec: person p3 of college Z (no matching head). -/
def ex3P3 : Record := [("Name", "p3"), ("College", "Z")]

/-- Conservation counterexample: the single head, college X. -/
def cx2Head : Record := [("Name", "A"), ("College", "X")]

/-- Conservation counterexample: first person with identifier `q`. -/
def cx2P1 : Record := [("Name", "q"), ("College", "X"), ("Team", "1")]

/-- Conservation counterexample: second, distinct person record with the same
identifier `q`. -/
def cx2P2 : Record := [("Name", "q"), ("College", "X"), ("Team", "2")]

/-- Head-loss counterexample: a head with an identifier but no college field. -/
def cx3A : Record := [("Name", "A")]

/-- Head-loss counterexample: a head lacking both the identifier field and
the college field. -/
def cx3B : Record := [("Other", "b")]

/-- Head-loss counterexample: the single person. -/
def cx3P : Record := [("Name", "p")]

/-- Duplicate-identifier run: the single head, college `mit`. -/
def dupHead : Record := [("Id", "H1"), ("Uni", "mit")]

/-- Duplicate-identifier run: first person, college normalizing to `mit`. -/
def dupP1 : Record := [("Id", "s"), ("Uni", "MIT")]

/-- Duplicate-identifier run: second person, same identifier `s`, college
also normalizing to `mit`. -/
def dupP2 : Record := [("Id", "s"), ("Uni", "mit "), ("Note", "x")]

/-- Small single-head, single-person input used to instantiate theorems with
hypotheses at a concrete run. -/
def wHead : Record := [("N", "h")]

/-- Small single-person input used to instantiate theorems with hypotheses at
a concrete run. -/
def wPerson : Record := [("N", "p")]

/-- Well-formedness of a produced association: it pairs a head with a member
(no status), or a head with a status (no member), or — in the
no-available-head branches — a member with a status (no head). -/
def shapeOK (x : Assoc) : Prop :=
  (∃ h m, x = ⟨some h, some m, none⟩) ∨
  (∃ h s, x = ⟨some h, none, some s⟩) ∨
  (∃ m s, x = ⟨none, some m, some s⟩)

/-- C4: if zero heads are supplied, the run fails with a configuration error
before producing any association: the Process button rejects an empty heads
collection, and the uniform branch's own `num_heads == 0` check likewise
aborts with its error message, so no output rows are emitted. -/
theorem zero_heads_error (pd : List Record) (a b c d : String) :
    (∃ msg, processButton pd [] a b c d = Except.error msg) ∧
    uniformPartition [] pd =
      Except.error "Error: No team heads found. Cannot create groups." := by
  constructor
  · by_cases hp : pd.isEmpty
    · refine ⟨"Please upload the People Excel/CSV sheet and ensure data is loaded.", ?_⟩
      simp [processButton, hp]
    · refine ⟨"Please upload the Team Heads Excel/CSV sheet and ensure data is loaded.", ?_⟩
      simp [processButton, hp]
  · rfl

/-- C5: when either collection lacks a detected grouping column, `partition`
equals uniform distribution on the full collections — independent of any
per-record grouping values, since the uniform branch never reads them. -/
theorem grouping_fallback (pd hd : List Record) (a b c d : String)
    (h : c = "" ∨ d = "") :
    partition pd hd a b c d = uniformPartition hd pd := by
  rcases h with h | h <;> subst h <;> simp [partition]

/-- Witness for `grouping_fallback` at a concrete single-head run with the
people-side grouping column missing. -/
theorem grouping_fallback_witness :
    partition [wPerson] [wHead] "N" "N" "" "X" = uniformPartition [wHead] [wPerson] :=
  grouping_fallback [wPerson] [wHead] "N" "N" "" "X" (Or.inl rfl)

/-- C9: the run is deterministic — on identical input collections, primary
columns and detected grouping columns, two runs produce identical output row
sequences.  The embedding is a pure function of its inputs: the source's
iteration orders are all defined (list order for records, first-seen order
for bucket keys) and its sets are used only through membership. -/
theorem partition_deterministic (pd₁ pd₂ hd₁ hd₂ : List Record)
    (a₁ a₂ b₁ b₂ c₁ c₂ d₁ d₂ : String)
    (hpd : pd₁ = pd₂) (hhd : hd₁ = hd₂) (ha : a₁ = a₂) (hb : b₁ = b₂)
    (hc : c₁ = c₂) (hdc : d₁ = d₂) :
    processRows pd₁ hd₁ a₁ b₁ c₁ d₁ = processRows pd₂ hd₂ a₂ b₂ c₂ d₂ := by
  subst hpd; subst hhd; subst ha; subst hb; subst hc; subst hdc; rfl

/-- Witness for `partition_deterministic` at a concrete run. -/
theorem partition_deterministic_witness :
    processRows [wPerson] [wHead] "N" "N" "" "" =
      processRows [wPerson] [wHead] "N" "N" "" "" :=
  partition_deterministic _ _ _ _ _ _ _ _ _ _ _ _ rfl rfl rfl rfl rfl rfl

/-- C2 counterexample: conservation fails on the grouped path.  With one head
of college X and two distinct people records sharing identifier `q` in
college X, the full output is a single association containing only the first
person: the second record is skipped in the per-college pass (its identifier
is already assigned) and is also excluded from the unassigned-people sweep,
so it appears in zero associations — refuting "every person record appears in
exactly one produced Association". -/
theorem conservation_counterexample :
    partition [cx2P1, cx2P2] [cx2Head] "Name" "Name" "College" "College" =
      Except.ok [⟨some cx2Head, some cx2P1, none⟩] ∧
    cx2P2 ∈ [cx2P1, cx2P2] ∧
    cx2P2 ∉ ([⟨some cx2Head, some cx2P1, none⟩] : List Assoc).filterMap Assoc.member := by
  exact ⟨by decide, by decide, by decide⟩

/-- C3 counterexample: head loss on the grouped path.  Head `cx3B` has
neither the primary identifier field nor a college field; it is never entered
into the processed-heads bookkeeping, the unprocessed-heads fallback skips it
(`head_id is not None` fails), and the round-robin over available heads
assigns the only unassigned person to the earlier head `cx3A` — so `cx3B`
appears in no association at all, refuting "every head record appears in at
least one produced Association". -/
theorem head_loss_counterexample :
    partition [cx3P] [cx3A, cx3B] "Name" "Name" "College" "College" =
      Except.ok
        [⟨some cx3A, none, some "No members assigned (No college match or college info)"⟩,
         ⟨some cx3A, some cx3P, none⟩] ∧
    cx3B ∈ [cx3A, cx3B] ∧
    some cx3B ∉
      ([⟨some cx3A, none, some "No members assigned (No college match or college info)"⟩,
        ⟨some cx3A, some cx3P, none⟩] : List Assoc).map Assoc.head := by
  exact ⟨by decide, by decide, by decide⟩

/-- C10: in the grouped path, two people records sharing the non-missing
identifier `s`, both in the `mit` bucket (one via whitespace/case
normalization) matched by a head, yield output containing only the
first-consumed record: the second is skipped by the duplicate-identifier
guard and excluded from `unassigned_people`, appearing in zero output
associations. -/
theorem duplicate_identifier_dropped :
    partition [dupP1, dupP2] [dupHead] "Id" "Id" "Uni" "Uni" =
      Except.ok [⟨some dupHead, some dupP1, none⟩] ∧
    dupP2 ∈ [dupP1, dupP2] ∧
    dupP2 ∉ ([⟨some dupHead, some dupP1, none⟩] : List Assoc).filterMap Assoc.member := by
  exact ⟨by decide, by decide, by decide⟩

theorem flatMapCongr {α β : Type} (l : List α) (f g : α → List β)
    (h : ∀ x ∈ l, f x = g x) : l.flatMap f = l.flatMap g := by
  induction l with
  | nil => rfl
  | cons a t ih =>
    simp only [List.flatMap_cons]
    rw [h a (by simp), ih (fun x hx => h x (by simp [hx]))]

theorem takeMembers_eq (head : Record) (ppl : List Record) :
    ∀ (count idx : Nat), idx + count ≤ ppl.length →
      takeMembers head ppl count idx =
        (((ppl.drop idx).take count).map (fun m => (⟨some head, some m, none⟩ : Assoc)),
         idx + count) := by
  intro count
  induction count with
  | zero => intro idx _; simp [takeMembers]
  | succ n ih =>
    intro idx h
    have hlt : idx < ppl.length := by omega
    have hdrop : ppl.drop idx = ppl.getD idx [] :: ppl.drop (idx + 1) := by
      rw [List.getD_eq_getElem _ _ hlt]
      exact List.drop_eq_getElem_cons hlt
    rw [hdrop]
    simp only [takeMembers, hlt, if_true, List.take_succ_cons, List.map_cons]
    rw [ih (idx + 1) (by omega)]
    simp only [Prod.mk.injEq, true_and]
    omega

theorem uniformHeads_eq (ppl : List Record) (base : Nat) :
    ∀ (hs : List Record) (rem idx : Nat), rem ≤ hs.length →
      idx + (base * hs.length + rem) ≤ ppl.length →
      uniformHeads ppl base hs rem idx =
        ((List.range hs.length).flatMap (fun i =>
            if base + (if i < rem then 1 else 0) = 0 then
              [(⟨some (hs.getD i []), none, some "No members assigned"⟩ : Assoc)]
            else
              ((ppl.drop (idx + (i * base + min i rem))).take
                  (base + (if i < rem then 1 else 0))).map
                (fun m => (⟨some (hs.getD i []), some m, none⟩ : Assoc))),
          idx + (base * hs.length + rem)) := by
  intro hs
  induction hs with
  | nil =>
    intro rem idx hr _
    have h0 : rem = 0 := Nat.le_zero.mp hr
    subst h0
    simp [uniformHeads]
  | cons hd0 t ih =>
    intro rem idx hr hlen
    have hmul : base * (hd0 :: t).length = base * t.length + base := by
      rw [List.length_cons, Nat.mul_succ]
    have hlen' : idx + (base * t.length + base + rem) ≤ ppl.length := by omega
    rw [List.length_cons, List.range_succ_eq_map, List.flatMap_cons, List.flatMap_map]
    rw [List.length_cons] at hr
    cases rem with
    | zero =>
      by_cases hb : base = 0
      · subst hb
        rw [uniformHeads]
        simp only [Nat.lt_irrefl, if_false, gt_iff_lt, if_true]
        rw [ih 0 idx (Nat.zero_le _) (by omega)]
        simp only [Prod.mk.injEq, Nat.not_lt_zero, if_false, Nat.add_zero, Nat.zero_add,
          Nat.zero_mul, Nat.mul_zero, Nat.zero_min, Nat.min_zero, List.getD_cons_zero,
          List.getD_cons_succ, Nat.succ_eq_add_one, if_true, List.singleton_append,
          List.cons.injEq, true_and]
      · rw [uniformHeads]
        simp only [Nat.lt_irrefl, if_false, gt_iff_lt, hb]
        rw [takeMembers_eq hd0 ppl base idx (by omega)]
        rw [ih 0 (idx + base) (Nat.zero_le _) (by omega)]
        simp only [Prod.mk.injEq, Nat.not_lt_zero, if_false, Nat.add_zero, Nat.zero_add,
          Nat.zero_mul, Nat.mul_zero, Nat.zero_min, Nat.min_zero, List.getD_cons_zero,
          List.getD_cons_succ, Nat.succ_eq_add_one, hb, List.append_cancel_left_eq]
        constructor
        · congr 1
          funext j
          rw [show idx + ((j + 1) * base) = idx + base + j * base from by
            rw [Nat.succ_mul]; omega]
        · rw [Nat.mul_succ]
          omega
    | succ r =>
      rw [uniformHeads]
      simp only [Nat.succ_pos, if_true, gt_iff_lt, Nat.succ_ne_zero, if_false,
        Nat.add_sub_cancel]
      rw [takeMembers_eq hd0 ppl (base + 1) idx (by omega)]
      rw [ih r (idx + (base + 1)) (by omega) (by omega)]
      simp only [Prod.mk.injEq, Nat.succ_pos, if_true, Nat.succ_ne_zero, Nat.add_zero,
        Nat.zero_add, Nat.zero_mul, Nat.mul_zero, Nat.zero_min, Nat.min_zero,
        List.getD_cons_zero, List.getD_cons_succ, Nat.succ_eq_add_one]
      constructor
      · congr 1
        apply flatMapCongr
        intro j hj
        simp only [Nat.add_lt_add_iff_right]
        rw [show idx + ((j + 1) * base + min (j + 1) (r + 1)) =
          idx + (base + 1) + (j * base + min j r) from by
            rw [Nat.succ_mul]; omega]
      · rw [Nat.mul_succ]
        omega

theorem uniformPartition_eq_spec (heads ppl : List Record) (hne : heads ≠ []) :
    uniformPartition heads ppl = Except.ok (uniformSpecAssocs heads ppl) := by
  have hpos : 0 < heads.length := List.length_pos.mpr hne
  have hH : ¬heads.length = 0 := by omega
  have hrem : ppl.length % heads.length < heads.length := Nat.mod_lt _ hpos
  have htot : heads.length * (ppl.length / heads.length) + ppl.length % heads.length
      = ppl.length := Nat.div_add_mod ppl.length heads.length
  have htot' : ppl.length / heads.length * heads.length + ppl.length % heads.length
      = ppl.length := by rw [Nat.mul_comm] at htot; exact htot
  rw [uniformPartition]
  simp only [hH, if_false]
  rw [uniformHeads_eq ppl (ppl.length / heads.length) heads (ppl.length % heads.length) 0
    (Nat.le_of_lt hrem) (by omega)]
  simp only []
  rw [show (0 : Nat) + (ppl.length / heads.length * heads.length + ppl.length % heads.length)
    = ppl.length from by omega]
  rw [leftoverAssocs, List.drop_length]
  simp only [List.map_nil, List.append_nil, Except.ok.injEq]
  rw [uniformSpecAssocs]
  apply flatMapCongr
  intro i _
  simp only [Nat.zero_add]

theorem takeConcat (l : List Record) (i m n : Nat) :
    (l.drop i).take m ++ (l.drop (i + m)).take n = (l.drop i).take (m + n) := by
  rw [List.take_add, List.drop_drop]

theorem uniformHeads_members (ppl : List Record) (base : Nat) :
    ∀ (hs : List Record) (rem idx : Nat), rem ≤ hs.length →
      idx + (base * hs.length + rem) ≤ ppl.length →
      (uniformHeads ppl base hs rem idx).1.filterMap Assoc.member =
        (ppl.drop idx).take (base * hs.length + rem) ∧
      (uniformHeads ppl base hs rem idx).2 = idx + (base * hs.length + rem) := by
  intro hs
  induction hs with
  | nil =>
    intro rem idx hr _
    have h0 : rem = 0 := Nat.le_zero.mp hr
    subst h0
    simp [uniformHeads]
  | cons hd0 t ih =>
    intro rem idx hr hlen
    rw [List.length_cons] at hr
    have hmul : base * (hd0 :: t).length = base * t.length + base := by
      rw [List.length_cons, Nat.mul_succ]
    have hlen' : idx + (base * t.length + base + rem) ≤ ppl.length := by omega
    rw [hmul] at hlen ⊢
    cases rem with
    | zero =>
      by_cases hb : base = 0
      · subst hb
        rw [uniformHeads]
        simp only [Nat.lt_irrefl, if_false, gt_iff_lt, if_true]
        have hrec := ih 0 idx (Nat.zero_le _) (by omega)
        exact ⟨by simpa using hrec.1, by simpa using hrec.2⟩
      · rw [uniformHeads]
        simp only [Nat.lt_irrefl, if_false, gt_iff_lt, hb]
        rw [takeMembers_eq hd0 ppl base idx (by omega)]
        have hrec := ih 0 (idx + base) (Nat.zero_le _) (by omega)
        simp only [List.filterMap_append, hrec.1, hrec.2, List.filterMap_map]
        constructor
        · rw [show ((Assoc.member ∘ fun m =>
              ({ head := some hd0, member := some m, status := none } : Assoc))
            = some) from by funext m; rfl]
          rw [List.filterMap_some]
          rw [takeConcat ppl idx base (base * t.length + 0)]
          congr 1
          omega
        · omega
    | succ r =>
      rw [uniformHeads]
      simp only [Nat.succ_pos, if_true, gt_iff_lt, Nat.succ_ne_zero, if_false,
        Nat.add_sub_cancel]
      rw [takeMembers_eq hd0 ppl (base + 1) idx (by omega)]
      have hrec := ih r (idx + (base + 1)) (by omega) (by omega)
      simp only [List.filterMap_append, hrec.1, hrec.2, List.filterMap_map]
      constructor
      · rw [show ((Assoc.member ∘ fun m =>
            ({ head := some hd0, member := some m, status := none } : Assoc))
          = some) from by funext m; rfl]
        rw [List.filterMap_some]
        rw [takeConcat ppl idx (base + 1) (base * t.length + r)]
        congr 1
        omega
      · omega

theorem uniformHeads_head_mem (ppl : List Record) (base : Nat) :
    ∀ (hs : List Record) (rem idx : Nat), rem ≤ hs.length →
      idx + (base * hs.length + rem) ≤ ppl.length →
      ∀ h ∈ hs, ∃ a ∈ (uniformHeads ppl base hs rem idx).1, a.head = some h := by
  intro hs
  induction hs with
  | nil => intro rem idx _ _ h hmem; exact absurd hmem (List.not_mem_nil h)
  | cons hd0 t ih =>
    intro rem idx hr hlen h hmem
    rw [List.length_cons] at hr
    have hmul : base * (hd0 :: t).length = base * t.length + base := by
      rw [List.length_cons, Nat.mul_succ]
    have hlen' : idx + (base * t.length + base + rem) ≤ ppl.length := by omega
    rcases List.mem_cons.mp hmem with heq | htail
    · subst heq
      cases rem with
      | zero =>
        by_cases hb : base = 0
        · subst hb
          rw [uniformHeads]
          simp only [Nat.lt_irrefl, if_false, gt_iff_lt, if_true]
          exact ⟨⟨some h, none, some "No members assigned"⟩, by simp, rfl⟩
        · rw [uniformHeads]
          simp only [Nat.lt_irrefl, if_false, gt_iff_lt, hb]
          rw [takeMembers_eq h ppl base idx (by omega)]
          have hne2 : ((ppl.drop idx).take base) ≠ [] := by
            have : 0 < ((ppl.drop idx).take base).length := by
              rw [List.length_take, List.length_drop]
              omega
            exact List.length_pos.mp this
          obtain ⟨x, hx⟩ := List.exists_mem_of_ne_nil _ hne2
          refine ⟨⟨some h, some x, none⟩, ?_, rfl⟩
          simp only [List.mem_append]
          exact Or.inl (List.mem_map_of_mem _ hx)
      | succ r =>
        rw [uniformHeads]
        simp only [Nat.succ_pos, if_true, gt_iff_lt, Nat.succ_ne_zero, if_false,
          Nat.add_sub_cancel]
        rw [takeMembers_eq h ppl (base + 1) idx (by omega)]
        have hne2 : ((ppl.drop idx).take (base + 1)) ≠ [] := by
          have : 0 < ((ppl.drop idx).take (base + 1)).length := by
            rw [List.length_take, List.length_drop]
            omega
          exact List.length_pos.mp this
        obtain ⟨x, hx⟩ := List.exists_mem_of_ne_nil _ hne2
        refine ⟨⟨some h, some x, none⟩, ?_, rfl⟩
        simp only [List.mem_append]
        exact Or.inl (List.mem_map_of_mem _ hx)
    · cases rem with
      | zero =>
        have hrec := ih 0 idx (Nat.zero_le _) (by omega) h htail
        by_cases hb : base = 0
        · subst hb
          rw [uniformHeads]
          simp only [Nat.lt_irrefl, if_false, gt_iff_lt, if_true]
          obtain ⟨a, ha, hah⟩ := hrec
          exact ⟨a, List.mem_cons_of_mem _ ha, hah⟩
        · rw [uniformHeads]
          simp only [Nat.lt_irrefl, if_false, gt_iff_lt, hb]
          rw [takeMembers_eq hd0 ppl base idx (by omega)]
          obtain ⟨a, ha, hah⟩ := ih 0 (idx + base) (Nat.zero_le _) (by omega) h htail
          refine ⟨a, ?_, hah⟩
          simp only [List.mem_append]
          exact Or.inr ha
      | succ r =>
        rw [uniformHeads]
        simp only [Nat.succ_pos, if_true, gt_iff_lt, Nat.succ_ne_zero, if_false,
          Nat.add_sub_cancel]
        rw [takeMembers_eq hd0 ppl (base + 1) idx (by omega)]
        obtain ⟨a, ha, hah⟩ := ih r (idx + (base + 1)) (by omega) (by omega) h htail
        refine ⟨a, ?_, hah⟩
        simp only [List.mem_append]
        exact Or.inr ha

/-- C1: on the uniform-distribution path with at least one head, the output
equals the declarative even-distribution spec: head `i` (in input order) is
allotted `⌊P/H⌋` people plus one more exactly when `i < P mod H` — so every
head receives `⌊P/H⌋` or `⌈P/H⌉` people, exactly `P mod H` heads (the first
ones) receive the larger share — and the people are consumed contiguously
from the people list in original order. -/
theorem uniform_even_distribution (heads ppl : List Record) (hne : heads ≠ []) :
    uniformPartition heads ppl = Except.ok (uniformSpecAssocs heads ppl) :=
  uniformPartition_eq_spec heads ppl hne

/-- Witness for `uniform_even_distribution` at a one-head, one-person run. -/
theorem uniform_even_distribution_witness :
    uniformPartition [wHead] [wPerson] = Except.ok (uniformSpecAssocs [wHead] [wPerson]) :=
  uniform_even_distribution [wHead] [wPerson] (List.cons_ne_nil _ _)

/-- C2 (amended): on the uniform-distribution path, conservation holds —
the members of the produced associations, in order, are exactly the people
list, so every person record appears in exactly one association. -/
theorem uniform_conservation (heads ppl : List Record) (hne : heads ≠ []) :
    (uniformPartition heads ppl).map (List.filterMap Assoc.member) = Except.ok ppl := by
  have hpos : 0 < heads.length := List.length_pos.mpr hne
  have hH : ¬heads.length = 0 := by omega
  have hrem : ppl.length % heads.length < heads.length := Nat.mod_lt _ hpos
  have htot : heads.length * (ppl.length / heads.length) + ppl.length % heads.length
      = ppl.length := Nat.div_add_mod ppl.length heads.length
  have htot' : ppl.length / heads.length * heads.length + ppl.length % heads.length
      = ppl.length := by rw [Nat.mul_comm] at htot; exact htot
  have hmem := uniformHeads_members ppl (ppl.length / heads.length) heads
    (ppl.length % heads.length) 0 (Nat.le_of_lt hrem) (by omega)
  rw [uniformPartition]
  simp only [hH, if_false, Except.map]
  rw [List.filterMap_append, hmem.1, hmem.2]
  rw [show (0 : Nat) +
      (ppl.length / heads.length * heads.length + ppl.length % heads.length)
    = ppl.length from by omega]
  rw [htot']
  rw [leftoverAssocs, List.drop_length]
  simp

/-- Witness for `uniform_conservation` at a one-head, one-person run. -/
theorem uniform_conservation_witness :
    (uniformPartition [wHead] [wPerson]).map (List.filterMap Assoc.member) =
      Except.ok [wPerson] :=
  uniform_conservation [wHead] [wPerson] (List.cons_ne_nil _ _)

/-- C3 (amended): on the uniform-distribution path with at least one head,
every head record appears in at least one produced association — even a head
whose primary identifier field is missing, since the uniform path never
consults identifiers.  (On the grouped path this fails; see the
counterexample.) -/
theorem uniform_no_head_loss (heads ppl : List Record) (hne : heads ≠ [])
    (assocs : List Assoc) (hok : uniformPartition heads ppl = Except.ok assocs)
    (h : Record) (hmem : h ∈ heads) : some h ∈ assocs.map Assoc.head := by
  have hpos : 0 < heads.length := List.length_pos.mpr hne
  have hH : ¬heads.length = 0 := by omega
  have hrem : ppl.length % heads.length < heads.length := Nat.mod_lt _ hpos
  have htot : heads.length * (ppl.length / heads.length) + ppl.length % heads.length
      = ppl.length := Nat.div_add_mod ppl.length heads.length
  have htot' : ppl.length / heads.length * heads.length + ppl.length % heads.length
      = ppl.length := by rw [Nat.mul_comm] at htot; exact htot
  have hrows := uniformHeads_head_mem ppl (ppl.length / heads.length) heads
    (ppl.length % heads.length) 0 (Nat.le_of_lt hrem) (by omega) h hmem
  rw [uniformPartition] at hok
  simp only [hH, if_false, Except.ok.injEq] at hok
  subst hok
  obtain ⟨a, ha, hah⟩ := hrows
  exact List.mem_map.mpr ⟨a, List.mem_append_left _ ha, hah⟩

/-- Witness for `uniform_no_head_loss` at a one-head, one-person run. -/
theorem uniform_no_head_loss_witness :
    some wHead ∈ ([⟨some wHead, some wPerson, none⟩] : List Assoc).map Assoc.head :=
  uniform_no_head_loss [wHead] [wPerson] (List.cons_ne_nil _ _)
    [⟨some wHead, some wPerson, none⟩] (by decide) wHead (by decide)

/-- C6: on the uniform-distribution path with at least one head, the leftover
branch is unreachable — every produced association has a head, and none
carries the status `"UNASSIGNED (No more heads available)"`, because the
per-head allotments sum to exactly the number of people. -/
theorem uniform_leftover_unreachable (heads ppl : List Record) (hne : heads ≠ [])
    (assocs : List Assoc) (hok : uniformPartition heads ppl = Except.ok assocs) :
    ∀ a ∈ assocs,
      a.head ≠ none ∧ a.status ≠ some "UNASSIGNED (No more heads available)" := by
  rw [uniformPartition_eq_spec heads ppl hne, Except.ok.injEq] at hok
  subst hok
  intro a ha
  simp only [uniformSpecAssocs, List.mem_flatMap, List.mem_range] at ha
  obtain ⟨i, _, hblock⟩ := ha
  split at hblock
  · split at hblock
    · rw [List.mem_singleton] at hblock
      subst hblock
      exact ⟨by simp, by simp⟩
    · rw [List.mem_map] at hblock
      obtain ⟨m, _, hm⟩ := hblock
      subst hm
      exact ⟨by simp, by simp⟩
  · split at hblock
    · rw [List.mem_singleton] at hblock
      subst hblock
      exact ⟨by simp, by simp⟩
    · rw [List.mem_map] at hblock
      obtain ⟨m, _, hm⟩ := hblock
      subst hm
      exact ⟨by simp, by simp⟩

/-- Witness for `uniform_leftover_unreachable` at a one-head, one-person run. -/
theorem uniform_leftover_unreachable_witness :
    (⟨some wHead, some wPerson, none⟩ : Assoc).head ≠ none ∧
    (⟨some wHead, some wPerson, none⟩ : Assoc).status ≠
      some "UNASSIGNED (No more heads available)" :=
  uniform_leftover_unreachable [wHead] [wPerson] (List.cons_ne_nil _ _)
    [⟨some wHead, some wPerson, none⟩] (by decide) _ (by decide)

theorem roundRobin_length (avail : List Record) :
    ∀ (ps : List Record) (hi : Nat), (roundRobin avail ps hi).length = ps.length := by
  intro ps
  induction ps with
  | nil => intro hi; rfl
  | cons p ps ih => intro hi; simp [roundRobin, ih]

theorem roundRobin_getD (avail : List Record) (hne : avail ≠ []) :
    ∀ (ps : List Record) (hi k : Nat), hi ≤ avail.length → k < ps.length →
      (roundRobin avail ps hi).getD k ⟨none, none, none⟩ =
        ⟨some (avail.getD ((hi + k) % avail.length) []), some (ps.getD k []), none⟩ := by
  have hlen : 0 < avail.length := List.length_pos.mpr hne
  intro ps
  induction ps with
  | nil => intro hi k _ hk; simp at hk
  | cons p ps ih =>
    intro hi k hhi hk
    rw [roundRobin]
    have hmod : (if hi ≥ avail.length then 0 else hi) = hi % avail.length := by
      by_cases hge : hi ≥ avail.length
      · have : hi = avail.length := by omega
        subst this
        simp [Nat.mod_self]
      · simp only [hge, if_false]
        exact (Nat.mod_eq_of_lt (by omega)).symm
    simp only [hmod]
    cases k with
    | zero =>
      simp only [List.getD_cons_zero, Nat.add_zero]
    | succ k' =>
      simp only [List.getD_cons_succ]
      have hmlt : hi % avail.length < avail.length := Nat.mod_lt hi hlen
      rw [ih (hi % avail.length + 1) k' (by omega) (by simpa using hk)]
      have harith : (hi % avail.length + 1 + k') % avail.length
          = (hi + (k' + 1)) % avail.length := by
        rw [Nat.add_assoc, Nat.mod_add_mod, Nat.add_comm 1 k']
      rw [harith]

/-- C7: the general pass of the grouped path.  First conjunct: the code's
round-robin walks the unassigned people in order, producing exactly one
association per person, pairing the `k`-th person with the candidate head at
index `k mod |avail|` (wrapping to the front when the candidate list is
exhausted).  Second conjunct: spec Example 3 end-to-end — candidate heads is
empty after the per-college pass, so the code falls back to the full heads
collection and p3, unassigned by grouping, is generally assigned to head A. -/
theorem general_pass_round_robin :
    (∀ (avail ps : List Record) (k : Nat), avail ≠ [] → k < ps.length →
        (roundRobin avail ps 0).length = ps.length ∧
        (roundRobin avail ps 0).getD k ⟨none, none, none⟩ =
          ⟨some (avail.getD (k % avail.length) []), some (ps.getD k []), none⟩) ∧
    partition [ex3P1, ex3P2, ex3P3] [ex3A, ex3B] "Name" "Name" "College" "College" =
      Except.ok [⟨some ex3A, some ex3P1, none⟩, ⟨some ex3A, some ex3P2, none⟩,
        ⟨some ex3B, none, some "No members from y assigned to this head"⟩,
        ⟨some ex3A, some ex3P3, none⟩] := by
  constructor
  · intro avail ps k hne hk
    refine ⟨roundRobin_length avail ps 0, ?_⟩
    simpa using roundRobin_getD avail hne ps 0 k (Nat.zero_le _) hk
  · decide

/-- Witness for the quantified conjunct of `general_pass_round_robin` at a
concrete one-head, one-person round-robin. -/
theorem general_pass_round_robin_witness :
    (roundRobin [wHead] [wPerson] 0).length = ([wPerson] : List Record).length ∧
    (roundRobin [wHead] [wPerson] 0).getD 0 ⟨none, none, none⟩ =
      ⟨some (([wHead] : List Record).getD (0 % ([wHead] : List Record).length) []),
       some (([wPerson] : List Record).getD 0 []), none⟩ :=
  general_pass_round_robin.1 [wHead] [wPerson] 0 (List.cons_ne_nil _ _) (by decide)

theorem shapeOK_takeMembers (head : Record) (ppl : List Record) :
    ∀ (count idx : Nat), ∀ x ∈ (takeMembers head ppl count idx).1, shapeOK x := by
  intro count
  induction count with
  | zero => intro idx x hx; simp [takeMembers] at hx
  | succ n ih =>
    intro idx x hx
    simp only [takeMembers] at hx
    split at hx
    · rcases List.mem_cons.mp hx with h | h
      · subst h; exact Or.inl ⟨head, _, rfl⟩
      · exact ih (idx + 1) x h
    · simp at hx

theorem shapeOK_uniformHeads (ppl : List Record) (base : Nat) :
    ∀ (hs : List Record) (rem idx : Nat),
      ∀ x ∈ (uniformHeads ppl base hs rem idx).1, shapeOK x := by
  intro hs
  induction hs with
  | nil => intro rem idx x hx; simp [uniformHeads] at hx
  | cons hd0 t ih =>
    intro rem idx x hx
    simp only [uniformHeads] at hx
    split at hx
    · split at hx
      · rcases List.mem_cons.mp hx with h | h
        · subst h; exact Or.inr (Or.inl ⟨hd0, _, rfl⟩)
        · exact ih _ _ x h
      · rcases List.mem_append.mp hx with h | h
        · exact shapeOK_takeMembers hd0 ppl _ _ x h
        · exact ih _ _ x h
    · split at hx
      · rcases List.mem_cons.mp hx with h | h
        · subst h; exact Or.inr (Or.inl ⟨hd0, _, rfl⟩)
        · exact ih _ _ x h
      · rcases List.mem_append.mp hx with h | h
        · exact shapeOK_takeMembers hd0 ppl _ _ x h
        · exact ih _ _ x h

theorem shapeOK_leftover (ppl : List Record) (idx : Nat) :
    ∀ x ∈ leftoverAssocs ppl idx, shapeOK x := by
  intro x hx
  rw [leftoverAssocs] at hx
  obtain ⟨p, _, hp⟩ := List.mem_map.mp hx
  subst hp
  exact Or.inr (Or.inr ⟨p, _, rfl⟩)

theorem shapeOK_uniformPartition (heads ppl : List Record) (assocs : List Assoc)
    (hok : uniformPartition heads ppl = Except.ok assocs) :
    ∀ x ∈ assocs, shapeOK x := by
  rw [uniformPartition] at hok
  split at hok
  · exact absurd hok (by simp)
  · rw [Except.ok.injEq] at hok
    subst hok
    intro x hx
    rcases List.mem_append.mp hx with h | h
    · exact shapeOK_uniformHeads ppl _ heads _ 0 x h
    · exact shapeOK_leftover ppl _ x h

theorem shapeOK_collegeMembers (pPrim : String) (head : Record) (ppl : List Record) :
    ∀ (count idx : Nat) (assigned : List String),
      ∀ x ∈ (collegeMembers pPrim head ppl count idx assigned).1, shapeOK x := by
  intro count
  induction count with
  | zero => intro idx assigned x hx; simp [collegeMembers] at hx
  | succ n ih =>
    intro idx assigned x hx
    simp only [collegeMembers] at hx
    split at hx
    · split at hx
      · split at hx
        · exact ih (idx + 1) assigned x hx
        · rcases List.mem_cons.mp hx with h | h
          · subst h; exact Or.inl ⟨head, _, rfl⟩
          · exact ih (idx + 1) _ x h
      · exact ih (idx + 1) assigned x hx
    · simp at hx

theorem shapeOK_collegeHeads (pPrim hPrim college : String) (ppl : List Record)
    (base : Nat) :
    ∀ (hs : List Record) (rem idx : Nat) (st : GState),
      (∀ x ∈ st.rows, shapeOK x) →
      ∀ x ∈ (collegeHeads pPrim hPrim college ppl base hs rem idx st).rows, shapeOK x := by
  intro hs
  induction hs with
  | nil => intro rem idx st hst x hx; exact hst x hx
  | cons hd0 t ih =>
    intro rem idx st hst x hx
    simp only [collegeHeads] at hx
    split at hx
    · split at hx
      · refine ih _ _ _ ?_ x hx
        intro y hy
        rcases List.mem_append.mp hy with h | h
        · exact hst y h
        · rw [List.mem_singleton] at h
          subst h
          exact Or.inr (Or.inl ⟨hd0, _, rfl⟩)
      · refine ih _ _ _ ?_ x hx
        intro y hy
        rcases List.mem_append.mp hy with h | h
        · exact hst y h
        · exact shapeOK_collegeMembers pPrim hd0 ppl _ _ _ y h
    · split at hx
      · refine ih _ _ _ ?_ x hx
        intro y hy
        rcases List.mem_append.mp hy with h | h
        · exact hst y h
        · rw [List.mem_singleton] at h
          subst h
          exact Or.inr (Or.inl ⟨hd0, _, rfl⟩)
      · refine ih _ _ _ ?_ x hx
        intro y hy
        rcases List.mem_append.mp hy with h | h
        · exact hst y h
        · exact shapeOK_collegeMembers pPrim hd0 ppl _ _ _ y h

theorem shapeOK_emptyCollegeHeads (hPrim college : String) :
    ∀ (hs : List Record) (st : GState),
      (∀ x ∈ st.rows, shapeOK x) →
      ∀ x ∈ (emptyCollegeHeads hPrim college hs st).rows, shapeOK x := by
  intro hs
  induction hs with
  | nil => intro st hst x hx; exact hst x hx
  | cons hd0 t ih =>
    intro st hst x hx
    simp only [emptyCollegeHeads] at hx
    refine ih _ ?_ x hx
    intro y hy
    rcases List.mem_append.mp hy with h | h
    · exact hst y h
    · rw [List.mem_singleton] at h
      subst h
      exact Or.inr (Or.inl ⟨hd0, _, rfl⟩)

theorem shapeOK_collegeLoop (pPrim hPrim : String)
    (pbc : List (String × List Record)) :
    ∀ (buckets : List (String × List Record)) (st : GState),
      (∀ x ∈ st.rows, shapeOK x) →
      ∀ x ∈ (collegeLoop pPrim hPrim pbc buckets st).rows, shapeOK x := by
  intro buckets
  induction buckets with
  | nil => intro st hst x hx; exact hst x hx
  | cons bk rest ih =>
    intro st hst x hx
    simp only [collegeLoop] at hx
    refine ih _ ?_ x hx
    split
    · exact shapeOK_collegeHeads pPrim hPrim bk.1 _ _ bk.2 _ 0 st hst
    · split
      · exact shapeOK_emptyCollegeHeads hPrim bk.1 bk.2 st hst
      · exact hst

theorem shapeOK_roundRobin (avail : List Record) :
    ∀ (ps : List Record) (hi : Nat), ∀ x ∈ roundRobin avail ps hi, shapeOK x := by
  intro ps
  induction ps with
  | nil => intro hi x hx; simp [roundRobin] at hx
  | cons p t ih =>
    intro hi x hx
    simp only [roundRobin] at hx
    rcases List.mem_cons.mp hx with h | h
    · subst h; exact Or.inl ⟨_, p, rfl⟩
    · exact ih _ x h

theorem shapeOK_groupedPath (pd hd : List Record) (a b c d : String) :
    ∀ x ∈ groupedPath pd hd a b c d, shapeOK x := by
  intro x hx
  simp only [groupedPath] at hx
  have hst1 : ∀ y ∈ (collegeLoop a b
      (bucketBy (fun p => normalizeKey (p.lookup c)) pd)
      (bucketBy (fun h => normalizeKey (h.lookup d)) hd) ⟨[], [], []⟩).rows, shapeOK y :=
    shapeOK_collegeLoop a b _ _ _ (by intro y hy; simp at hy)
  have hrows2 : ∀ y ∈ (collegeLoop a b
      (bucketBy (fun p => normalizeKey (p.lookup c)) pd)
      (bucketBy (fun h => normalizeKey (h.lookup d)) hd) ⟨[], [], []⟩).rows ++
      hd.filterMap (fun h =>
        match getIdentifier h b with
        | some hid =>
          if ((collegeLoop a b
              (bucketBy (fun p => normalizeKey (p.lookup c)) pd)
              (bucketBy (fun h => normalizeKey (h.lookup d)) hd)
              ⟨[], [], []⟩).processed).contains hid then none
          else some (⟨some h, none,
            some "No members assigned (No college match or college info)"⟩ : Assoc)
        | none => none), shapeOK y := by
    intro y hy
    rcases List.mem_append.mp hy with h | h
    · exact hst1 y h
    · obtain ⟨hrec, _, hf⟩ := List.mem_filterMap.mp h
      split at hf
      · split at hf
        · exact absurd hf (by simp)
        · rw [Option.some.injEq] at hf
          subst hf
          exact Or.inr (Or.inl ⟨hrec, _, rfl⟩)
      · exact absurd hf (by simp)
  have hmapcase : ∀ (l : List Record), ∀ y ∈ l.map (fun p =>
      (⟨none, some p, some "UNASSIGNED (No matching college head or no available head)"⟩
        : Assoc)), shapeOK y := by
    intro l y hy
    obtain ⟨p, _, hp⟩ := List.mem_map.mp hy
    subst hp
    exact Or.inr (Or.inr ⟨p, _, rfl⟩)
  split at hx
  · exact hrows2 x hx
  · split at hx <;> try split at hx
    all_goals
      rcases List.mem_append.mp hx with h | h
    all_goals
      first
        | exact hrows2 x h
        | exact hmapcase _ x h
        | exact shapeOK_roundRobin _ _ _ x h

theorem shapeOK_processButton (pd hd : List Record) (a b c d : String)
    (assocs : List Assoc) (hok : processButton pd hd a b c d = Except.ok assocs) :
    ∀ x ∈ assocs, shapeOK x := by
  rw [processButton] at hok
  split at hok
  · exact absurd hok (by simp)
  · split at hok
    · exact absurd hok (by simp)
    · rw [partition] at hok
      split at hok
      · rw [Except.ok.injEq] at hok
        subst hok
        exact shapeOK_groupedPath pd hd a b c d
      · exact shapeOK_uniformPartition hd pd assocs hok

/-- C8: every produced association flattens to a row of the documented shape:
the head's fields tagged `"Team Head - "` in their original order first, then
either the member's fields tagged `"Group Member - "` in their original order
(when a member is present) or the `"Group Member - Status"` field carrying
the association's status (when no member is present); headless associations
carry `"Team Head - Status"` followed by the member fields.  The run's output
rows are exactly the projections of its associations. -/
theorem projection_shape (pd hd : List Record) (a b c d : String)
    (assocs : List Assoc) (hok : processButton pd hd a b c d = Except.ok assocs) :
    processRows pd hd a b c d = Except.ok (assocs.map project) ∧
    ∀ x ∈ assocs,
      (∃ h m, x = ⟨some h, some m, none⟩ ∧
        project x = headRowFields h ++ memberRowFields m) ∨
      (∃ h s, x = ⟨some h, none, some s⟩ ∧
        project x = headRowFields h ++ [("Group Member - Status", s)]) ∨
      (∃ m s, x = ⟨none, some m, some s⟩ ∧
        project x = ("Team Head - Status", s) :: memberRowFields m) := by
  constructor
  · rw [processRows, hok]
    rfl
  · intro x hx
    rcases shapeOK_processButton pd hd a b c d assocs hok x hx with
      ⟨h, m, rfl⟩ | ⟨h, s, rfl⟩ | ⟨m, s, rfl⟩
    · exact Or.inl ⟨h, m, rfl, rfl⟩
    · exact Or.inr (Or.inl ⟨h, s, rfl, rfl⟩)
    · exact Or.inr (Or.inr ⟨m, s, rfl, rfl⟩)

/-- Witness for `projection_shape` at a concrete one-head, one-person run. -/
theorem projection_shape_witness :
    processRows [wPerson] [wHead] "N" "N" "" "" =
      Except.ok (([⟨some wHead, some wPerson, none⟩] : List Assoc).map project) :=
  (projection_shape [wPerson] [wHead] "N" "N" "" ""
    [⟨some wHead, some wPerson, none⟩] (by decide)).1
